import Mathlib

/-!
Verification development for the phoneline fixer sketch
(src/phoneline_fixer_V2.0.ino, V2.0, DEBUG = 0, TEST_MOSFETS = false).

The sketch samples the tip and ring conductors of a phone line into two
circular history buffers, classifies the line state from the most recent
window of tip-minus-ring deltas, and on an ON_HOOK to OFF_HOOK transition
drives a capacitor shunt across the line for a fixed 750 ms dwell.

We embed the global state as a structure `Sys`, the side-effecting calls
(digitalWrite, delay, analogRead) as an explicit trace of `action`s, and
the float voltage transform as the same formula over exact rationals.
-/

namespace PhonelineFixer

/-- SAMPLE_INTERVAL: msec between acquisition cycles. -/
def SAMPLE_INTERVAL : ℕ := 5

/-- NUM_SAMPLES: 50 msec of samples used by the classifier window. -/
def NUM_SAMPLES : ℕ := 50 / SAMPLE_INTERVAL

/-- NUM_HISTORY: 2 seconds of history kept in the circular buffers. -/
def NUM_HISTORY : ℕ := 2000 / SAMPLE_INTERVAL

/-- Arduino Nano analog pin A1, the ring conductor's ADC channel. -/
def PBX_LINE_RING : ℕ := 15

/-- Arduino Nano analog pin A0, the tip conductor's ADC channel. -/
def PBX_LINE_TIP : ℕ := 14

/-- Digital pin controlling the shunt/capacitor relay (high to disconnect). -/
def DISCONNECT_SHUNT : ℕ := 4

/-- Digital pin controlling the CO-PBX ring relay (high to disconnect). -/
def DISCONNECT_CO_PBX_RING : ℕ := 3

/-- Digital pin controlling the CO-PBX tip relay (high to disconnect). -/
def DISCONNECT_CO_PBX_TIP : ℕ := 5

/-- Built-in LED pin on the Nano board. -/
def LED : ℕ := 13

/-- enum line_state_t from the sketch. -/
inductive line_state_t where
  | ON_HOOK
  | OFF_HOOK
  | RINGING
deriving DecidableEq, Repr

/-- Analog front-end constants, as exact rationals. -/
def Vref : ℚ := 5

def Vbias : ℚ := 5

def RA : ℚ := 100000

def RB : ℚ := 8200

def RC : ℚ := 9100

/-- Computable floor of a rational, equal to Int.floor. -/
def ratFloor (x : ℚ) : ℤ := x.num / (x.den : ℤ)

/-- Computable ceiling of a rational, equal to Int.ceil. -/
def ratCeil (x : ℚ) : ℤ := -ratFloor (-x)

lemma ratFloor_eq (x : ℚ) : ratFloor x = ⌊x⌋ := by
  rw [Rat.floor_def]
  rfl

lemma ratCeil_eq (x : ℚ) : ratCeil x = ⌈x⌉ := by
  rw [ratCeil, ratFloor_eq, Int.floor_neg, neg_neg]

/-- The C idiom `Vin >= 0 ? (int)(Vin + 0.5) : (int)(Vin - 0.5)`:
round half away from zero (the int cast truncates toward zero). -/
def roundHalfAway (x : ℚ) : ℤ :=
  if 0 ≤ x then ratFloor (x + 1/2) else ratCeil (x - 1/2)

/-- The scale/bias transform of read_voltage before rounding:
`Vout = aval * Vref / 1024; Vin = (Vout * (1/RA + 1/RB + 1/RC) - Vbias/RB) * RA`. -/
def Vin_of_raw (aval : ℕ) : ℚ :=
  ((aval : ℚ) * Vref / 1024 * (1/RA + 1/RB + 1/RC) - Vbias/RB) * RA

/-- The rounded voltage returned by read_voltage for a raw ADC code. -/
def voltage (aval : ℕ) : ℤ := roundHalfAway (Vin_of_raw aval)

/-- Conversion of an int to the int8_t history slot (AVR gcc wraps mod 256). -/
def int8wrap (v : ℤ) : ℤ := (v + 128) % 256 - 128

/-- struct pbx_line_t: per-conductor label, ADC channel, write cursor and
circular history array. The array is modelled as a total function on ℤ;
the code only ever indexes it inside [0, NUM_HISTORY). -/
structure pbx_line_t where
  name : String
  port : ℕ
  nextslot : ℤ
  history : ℤ → ℤ

/-- read_voltage on one conductor: store the rounded (and int8-narrowed)
voltage at the cursor, advance the cursor with wraparound, return the
rounded voltage. -/
def read_voltage (aval : ℕ) (p : pbx_line_t) : ℤ × pbx_line_t :=
  let V := voltage aval
  (V, { p with
        history := Function.update p.history p.nextslot (int8wrap V),
        nextslot := if (NUM_HISTORY : ℤ) ≤ p.nextslot + 1 then 0 else p.nextslot + 1 })

/-- The global mutable state of the sketch. -/
structure Sys where
  pbx_tip : pbx_line_t
  pbx_ring : pbx_line_t
  last_linestate : line_state_t
  connected : Bool
  shunted : Bool
  count : ℕ

/-- `if (--ndx < 0) ndx = NUM_HISTORY - 1;` -/
def decIdx (ndx : ℤ) : ℤ :=
  if ndx - 1 < 0 then (NUM_HISTORY : ℤ) - 1 else ndx - 1

/-- The scan loop of getlinestate: walk backward from the cursor over the
most recent `fuel` samples, updating the onhook/offhook flags and the
ringing sample count exactly as the source does. -/
def scanWindow (tip ring : ℤ → ℤ) :
    ℕ → ℤ → Bool → Bool → ℕ → Bool × Bool × ℕ
  | 0, _, onhook, offhook, rs => (onhook, offhook, rs)
  | fuel + 1, ndx, onhook, offhook, rs =>
    let ndx1 := decIdx ndx
    let vdelta := tip ndx1 - ring ndx1
    scanWindow tip ring fuel ndx1
      (if vdelta < 35 ∨ 60 < vdelta then false else onhook)
      (if vdelta < -10 ∨ 20 < vdelta then false else offhook)
      (if vdelta < -70 ∨ 70 < vdelta then rs + 1 else rs)

/-- getlinestate: classify the most recent NUM_SAMPLES tip-ring deltas; reads
the state and returns it unchanged together with the decision. -/
def getlinestate (s : Sys) : line_state_t × Sys :=
  match scanWindow s.pbx_tip.history s.pbx_ring.history
      NUM_SAMPLES s.pbx_ring.nextslot true true 0 with
  | (onhook, offhook, ringing_samples) =>
    (if onhook then .ON_HOOK
     else if offhook then .OFF_HOOK
     else if 2 ≤ ringing_samples then .RINGING
     else s.last_linestate, s)

/-- The window's index walk: the NUM_SAMPLES indices the scan visits,
newest first. -/
def windowIdxs : ℕ → ℤ → List ℤ
  | 0, _ => []
  | fuel + 1, ndx => decIdx ndx :: windowIdxs fuel (decIdx ndx)

/-- The tip-minus-ring deltas the classifier examines, newest first. -/
def windowDeltas (s : Sys) : List ℤ :=
  (windowIdxs NUM_SAMPLES s.pbx_ring.nextslot).map
    (fun j => s.pbx_tip.history j - s.pbx_ring.history j)

/-- The scan loop rephrased as a fold over the list of deltas. -/
def scanDeltas : List ℤ → Bool → Bool → ℕ → Bool × Bool × ℕ
  | [], onhook, offhook, rs => (onhook, offhook, rs)
  | d :: rest, onhook, offhook, rs =>
    scanDeltas rest
      (if d < 35 ∨ 60 < d then false else onhook)
      (if d < -10 ∨ 20 < d then false else offhook)
      (if d < -70 ∨ 70 < d then rs + 1 else rs)

lemma scanWindow_eq_scanDeltas (tip ring : ℤ → ℤ) :
    ∀ (fuel : ℕ) (ndx : ℤ) (onhook offhook : Bool) (rs : ℕ),
      scanWindow tip ring fuel ndx onhook offhook rs =
        scanDeltas ((windowIdxs fuel ndx).map (fun j => tip j - ring j))
          onhook offhook rs
  | 0, _, _, _, _ => rfl
  | fuel + 1, ndx, onhook, offhook, rs => by
    simp only [scanWindow, windowIdxs, List.map_cons, scanDeltas]
    exact scanWindow_eq_scanDeltas tip ring fuel (decIdx ndx) _ _ _

lemma windowIdxs_length (fuel : ℕ) (ndx : ℤ) :
    (windowIdxs fuel ndx).length = fuel := by
  induction fuel generalizing ndx with
  | zero => rfl
  | succ n ih => simp [windowIdxs, ih]

lemma scanDeltas_fst (ds : List ℤ) (onhook offhook : Bool) (rs : ℕ) :
    (scanDeltas ds onhook offhook rs).1 =
      (onhook && ds.all (fun d => decide (35 ≤ d ∧ d ≤ 60))) := by
  induction ds generalizing onhook offhook rs with
  | nil => simp [scanDeltas]
  | cons d rest ih =>
    simp only [scanDeltas, List.all_cons, ih]
    by_cases h : d < 35 ∨ 60 < d
    · simp [h, show ¬(35 ≤ d ∧ d ≤ 60) by omega]
    · simp only [if_neg h]
      have : 35 ≤ d ∧ d ≤ 60 := by omega
      simp [this, Bool.and_assoc, Bool.and_comm]

lemma scanDeltas_offhook (ds : List ℤ) (onhook offhook : Bool) (rs : ℕ) :
    (scanDeltas ds onhook offhook rs).2.1 =
      (offhook && ds.all (fun d => decide (-10 ≤ d ∧ d ≤ 20))) := by
  induction ds generalizing onhook offhook rs with
  | nil => simp [scanDeltas]
  | cons d rest ih =>
    simp only [scanDeltas, List.all_cons, ih]
    by_cases h : d < -10 ∨ 20 < d
    · simp [h, show ¬(-10 ≤ d ∧ d ≤ 20) by omega]
    · simp only [if_neg h]
      have : -10 ≤ d ∧ d ≤ 20 := by omega
      simp [this, Bool.and_assoc, Bool.and_comm]

lemma scanDeltas_ringing (ds : List ℤ) (onhook offhook : Bool) (rs : ℕ) :
    (scanDeltas ds onhook offhook rs).2.2 =
      rs + ds.countP (fun d => decide (d < -70 ∨ 70 < d)) := by
  induction ds generalizing onhook offhook rs with
  | nil => simp [scanDeltas]
  | cons d rest ih =>
    simp only [scanDeltas, List.countP_cons, ih]
    by_cases h : d < -70 ∨ 70 < d
    · simp [h]; omega
    · simp [h]

/-- The decision of getlinestate as a function of the delta window and the
previously held state. -/
def classify (ds : List ℤ) (last : line_state_t) : line_state_t :=
  match scanDeltas ds true true 0 with
  | (onhook, offhook, ringing_samples) =>
    if onhook then .ON_HOOK
    else if offhook then .OFF_HOOK
    else if 2 ≤ ringing_samples then .RINGING
    else last

lemma getlinestate_eq_classify (s : Sys) :
    getlinestate s = (classify (windowDeltas s) s.last_linestate, s) := by
  simp only [getlinestate, classify, windowDeltas,
    scanWindow_eq_scanDeltas]

/-- Side effects on the hardware, recorded as a trace. HIGH is `true`. -/
inductive action where
  | analog_read (port : ℕ) (value : ℕ)
  | digital_write (pin : ℕ) (level : Bool)
  | delay (ms : ℕ)
deriving DecidableEq, Repr

/-- do_connect: drive both CO-PBX relay pins (active-high disconnect) and
record the connected flag. -/
def do_connect (connect : Bool) (s : Sys) : Sys × List action :=
  ({ s with connected := connect },
   [.digital_write DISCONNECT_CO_PBX_TIP (!connect),
    .digital_write DISCONNECT_CO_PBX_RING (!connect)])

/-- do_shunt: drive the shunt/capacitor relay pin (active-high disconnect)
and record the shunted flag. -/
def do_shunt (put_shunt_in : Bool) (s : Sys) : Sys × List action :=
  ({ s with shunted := put_shunt_in },
   [.digital_write DISCONNECT_SHUNT (!put_shunt_in)])

/-- One acquisition of the ring conductor at Sys level: read_voltage plus
the global sample counter increment and the ADC read in the trace. -/
def sample_ring (aval : ℕ) (s : Sys) : Sys × List action :=
  ({ s with pbx_ring := (read_voltage aval s.pbx_ring).2, count := s.count + 1 },
   [.analog_read s.pbx_ring.port aval])

/-- One acquisition of the tip conductor at Sys level. -/
def sample_tip (aval : ℕ) (s : Sys) : Sys × List action :=
  ({ s with pbx_tip := (read_voltage aval s.pbx_tip).2, count := s.count + 1 },
   [.analog_read s.pbx_tip.port aval])

/-- One iteration of loop() with DEBUG = 0 (all serial and `if (0)` blocks
compiled out): sample ring then tip, classify, on a state change run the
actuation sequence only for the ON_HOOK to OFF_HOOK edge, update the held
state, sleep for the sample interval. `ring_raw`/`tip_raw` are the ADC
codes the environment supplies this cycle. -/
def loop (ring_raw tip_raw : ℕ) (s : Sys) : Sys × List action :=
  let (s1, t1) := sample_ring ring_raw s
  let (s2, t2) := sample_tip tip_raw s1
  let (new_linestate, s3) := getlinestate s2
  if new_linestate ≠ s3.last_linestate then
    if s3.last_linestate = .ON_HOOK ∧ new_linestate = .OFF_HOOK then
      let (s4, t4) := do_shunt true s3
      let (s5, t5) := do_shunt false s4
      ({ s5 with last_linestate := new_linestate },
       t1 ++ t2 ++ [.digital_write LED true] ++ t4 ++ [.delay 750] ++ t5
          ++ [.digital_write LED false] ++ [.delay SAMPLE_INTERVAL])
    else
      ({ s3 with last_linestate := new_linestate },
       t1 ++ t2 ++ [.delay SAMPLE_INTERVAL])
  else (s3, t1 ++ t2 ++ [.delay SAMPLE_INTERVAL])

/-- The warm-up fill loop of setup(): one ring acquisition and one tip
acquisition per iteration, driven by a list of ADC code pairs. -/
def fill_loop : List (ℕ × ℕ) → Sys → Sys
  | [], s => s
  | (r, t) :: rest, s =>
    fill_loop rest ((sample_tip t ((sample_ring r s).1)).1)

/-- setup() after pin initialization (DEBUG = 0, TEST_MOSFETS = false):
capacitor out, CO and PBX connected, NUM_HISTORY warm-up acquisitions per
conductor (`raws` lists the ADC code pairs the environment supplies, one
pair per fill iteration, so it has NUM_HISTORY entries), held state
initialized to ON_HOOK. -/
def setup (raws : List (ℕ × ℕ)) (s : Sys) : Sys :=
  let s1 := (do_shunt false s).1
  let s2 := (do_connect true s1).1
  let s3 := fill_loop raws s2
  { s3 with last_linestate := .ON_HOOK }

/-- do_disconnect, unused in this version: isolate the line behind a shunt
for the dwell, then reconnect. -/
def do_disconnect (s : Sys) : Sys × List action :=
  let (s1, t1) := do_shunt true s
  let (s2, t2) := do_connect false s1
  let (s3, t3) := do_connect true s2
  let (s4, t4) := do_shunt false s3
  (s4, [.digital_write LED true] ++ t1 ++ t2 ++ [.delay 750] ++ t3 ++ t4
     ++ [.digital_write LED false])

/-- The global initializers: cursors at 0, zeroed static arrays, the
zero-valued enum ON_HOOK, connected and shunted false. -/
def init : Sys :=
  { pbx_tip := { name := "Tip", port := PBX_LINE_TIP, nextslot := 0,
                 history := fun _ => 0 },
    pbx_ring := { name := "Ring", port := PBX_LINE_RING, nextslot := 0,
                  history := fun _ => 0 },
    last_linestate := .ON_HOOK,
    connected := false, shunted := false, count := 0 }

/-- Iterated loop() over a stream of per-cycle ADC code pairs. -/
def iterate_loop : List (ℕ × ℕ) → Sys → Sys
  | [], s => s
  | (r, t) :: rest, s => iterate_loop rest (loop r t s).1

/-- The state after the two acquisitions of a loop() cycle, at which the
classifier runs. -/
def sampled (ring_raw tip_raw : ℕ) (s : Sys) : Sys :=
  (sample_tip tip_raw (sample_ring ring_raw s).1).1

/-- The classifier's decision in a loop() cycle with the given ADC codes. -/
def new_state (ring_raw tip_raw : ℕ) (s : Sys) : line_state_t :=
  (getlinestate (sampled ring_raw tip_raw s)).1

/-- Does an action write the shunt/capacitor relay pin? -/
def touches_shunt : action → Bool
  | .digital_write pin _ => pin == DISCONNECT_SHUNT
  | _ => false

/-- Does an action write either CO-PBX isolation relay pin? -/
def touches_connect : action → Bool
  | .digital_write pin _ =>
      pin == DISCONNECT_CO_PBX_TIP || pin == DISCONNECT_CO_PBX_RING
  | _ => false

lemma classify_spec (ds : List ℤ) (last : line_state_t) :
    classify ds last =
      if ∀ d ∈ ds, 35 ≤ d ∧ d ≤ 60 then .ON_HOOK
      else if ∀ d ∈ ds, -10 ≤ d ∧ d ≤ 20 then .OFF_HOOK
      else if 2 ≤ ds.countP (fun d => decide (d < -70 ∨ 70 < d)) then .RINGING
      else last := by
  have h1 := scanDeltas_fst ds true true 0
  have h2 := scanDeltas_offhook ds true true 0
  have h3 := scanDeltas_ringing ds true true 0
  unfold classify
  rcases hs : scanDeltas ds true true 0 with ⟨onhook, offhook, rs⟩
  rw [hs] at h1 h2 h3
  simp only [Bool.true_and] at h1 h2 h3
  rw [h1, h2, h3]
  simp only [List.all_eq_true, decide_eq_true_eq, Nat.zero_add]

lemma windowDeltas_length (s : Sys) :
    (windowDeltas s).length = NUM_SAMPLES := by
  simp [windowDeltas, windowIdxs_length]

/-- A concrete system state for witnesses: cursors at 0, constant tip and
ring histories, a chosen held state. -/
def wsys (tipv ringv : ℤ) (last : line_state_t) : Sys :=
  { pbx_tip := { name := "Tip", port := PBX_LINE_TIP, nextslot := 0,
                 history := fun _ => tipv },
    pbx_ring := { name := "Ring", port := PBX_LINE_RING, nextslot := 0,
                  history := fun _ => ringv },
    last_linestate := last, connected := true, shunted := false, count := 0 }

/-- A concrete system state whose tip history alternates between high
positive and high negative voltages, as during ringing. -/
def wsys_ring : Sys :=
  { pbx_tip := { name := "Tip", port := PBX_LINE_TIP, nextslot := 0,
                 history := fun j => if j % 2 = 0 then 100 else -100 },
    pbx_ring := { name := "Ring", port := PBX_LINE_RING, nextslot := 0,
                  history := fun _ => 0 },
    last_linestate := .ON_HOOK, connected := true, shunted := false, count := 0 }

/-- Claim C2: if every delta of the classifier's window lies in the
inclusive on-hook band [35, 60], getlinestate returns ON_HOOK, for any
previously held state. -/
theorem getlinestate_onhook_window (s : Sys)
    (h : ∀ d ∈ windowDeltas s, 35 ≤ d ∧ d ≤ 60) :
    (getlinestate s).1 = .ON_HOOK := by
  rw [getlinestate_eq_classify]
  show classify (windowDeltas s) s.last_linestate = _
  rw [classify_spec, if_pos h]

/-- Witness for C2 at a constant 45-volt delta window. -/
theorem getlinestate_onhook_window_witness :
    (∀ d ∈ windowDeltas (wsys 45 0 .RINGING), 35 ≤ d ∧ d ≤ 60) ∧
      (getlinestate (wsys 45 0 .RINGING)).1 = .ON_HOOK :=
  ⟨by decide, getlinestate_onhook_window (wsys 45 0 .RINGING) (by decide)⟩

/-- Claim C3: if every delta of the classifier's window lies in the
inclusive off-hook band [-10, 20], getlinestate returns OFF_HOOK, for any
previously held state; the on-hook test cannot hold at the same time since
the window is non-empty and the bands are disjoint. -/
theorem getlinestate_offhook_window (s : Sys)
    (h : ∀ d ∈ windowDeltas s, -10 ≤ d ∧ d ≤ 20) :
    (getlinestate s).1 = .OFF_HOOK := by
  rw [getlinestate_eq_classify]
  show classify (windowDeltas s) s.last_linestate = _
  have hne : windowDeltas s ≠ [] := by
    have := windowDeltas_length s
    intro hnil
    rw [hnil] at this
    simp [NUM_SAMPLES, SAMPLE_INTERVAL] at this
  obtain ⟨d0, hd0⟩ := List.exists_mem_of_ne_nil _ hne
  have hon : ¬ ∀ d ∈ windowDeltas s, 35 ≤ d ∧ d ≤ 60 := by
    intro hall
    have h1 := hall d0 hd0
    have h2 := h d0 hd0
    omega
  rw [classify_spec, if_neg hon, if_pos h]

/-- Witness for C3 at a constant 5-volt delta window. -/
theorem getlinestate_offhook_window_witness :
    (∀ d ∈ windowDeltas (wsys 5 0 .RINGING), -10 ≤ d ∧ d ≤ 20) ∧
      (getlinestate (wsys 5 0 .RINGING)).1 = .OFF_HOOK :=
  ⟨by decide, getlinestate_offhook_window (wsys 5 0 .RINGING) (by decide)⟩

/-- Claim C4: if at least 2 window deltas have magnitude strictly greater
than 70 and neither steady band condition holds over the whole window,
getlinestate returns RINGING. -/
theorem getlinestate_ringing_window (s : Sys)
    (hon : ¬ ∀ d ∈ windowDeltas s, 35 ≤ d ∧ d ≤ 60)
    (hoff : ¬ ∀ d ∈ windowDeltas s, -10 ≤ d ∧ d ≤ 20)
    (hr : 2 ≤ (windowDeltas s).countP (fun d => decide (d < -70 ∨ 70 < d))) :
    (getlinestate s).1 = .RINGING := by
  rw [getlinestate_eq_classify]
  show classify (windowDeltas s) s.last_linestate = _
  rw [classify_spec, if_neg hon, if_neg hoff, if_pos hr]

/-- Witness for C4 at a window of alternating +100 and -100 volt deltas. -/
theorem getlinestate_ringing_window_witness :
    (¬ ∀ d ∈ windowDeltas wsys_ring, 35 ≤ d ∧ d ≤ 60) ∧
      (¬ ∀ d ∈ windowDeltas wsys_ring, -10 ≤ d ∧ d ≤ 20) ∧
      2 ≤ (windowDeltas wsys_ring).countP (fun d => decide (d < -70 ∨ 70 < d)) ∧
      (getlinestate wsys_ring).1 = .RINGING :=
  ⟨by decide, by decide, by decide,
    getlinestate_ringing_window wsys_ring (by decide) (by decide) (by decide)⟩

/-- Claim C5: if neither band condition holds over the whole window and
fewer than 2 deltas have magnitude greater than 70, getlinestate returns
the previously held state unchanged. -/
theorem getlinestate_ambiguous_window (s : Sys)
    (hon : ¬ ∀ d ∈ windowDeltas s, 35 ≤ d ∧ d ≤ 60)
    (hoff : ¬ ∀ d ∈ windowDeltas s, -10 ≤ d ∧ d ≤ 20)
    (hr : (windowDeltas s).countP (fun d => decide (d < -70 ∨ 70 < d)) < 2) :
    (getlinestate s).1 = s.last_linestate := by
  rw [getlinestate_eq_classify]
  show classify (windowDeltas s) s.last_linestate = _
  rw [classify_spec, if_neg hon, if_neg hoff, if_neg (Nat.not_le.mpr hr)]

/-- Witness for C5 at a constant 30-volt delta window, between the two
bands, with held state RINGING. -/
theorem getlinestate_ambiguous_window_witness :
    (¬ ∀ d ∈ windowDeltas (wsys 30 0 .RINGING), 35 ≤ d ∧ d ≤ 60) ∧
      (¬ ∀ d ∈ windowDeltas (wsys 30 0 .RINGING), -10 ≤ d ∧ d ≤ 20) ∧
      (windowDeltas (wsys 30 0 .RINGING)).countP
        (fun d => decide (d < -70 ∨ 70 < d)) < 2 ∧
      (getlinestate (wsys 30 0 .RINGING)).1 = .RINGING :=
  ⟨by decide, by decide, by decide,
    getlinestate_ambiguous_window (wsys 30 0 .RINGING) (by decide) (by decide)
      (by decide)⟩

/-- Claim C9: getlinestate is side-effect-free — it returns the state it
was given, unchanged in every component — and its decision depends only on
the window of deltas and the previously held state. -/
theorem getlinestate_frame (s t : Sys)
    (hw : windowDeltas s = windowDeltas t)
    (hl : s.last_linestate = t.last_linestate) :
    (getlinestate s).2 = s ∧ (getlinestate t).2 = t ∧
      (getlinestate s).1 = (getlinestate t).1 := by
  refine ⟨?_, ?_, ?_⟩
  · rw [getlinestate_eq_classify]
  · rw [getlinestate_eq_classify]
  · rw [getlinestate_eq_classify, getlinestate_eq_classify, hw, hl]

/-- Witness for C9: two states agreeing on the delta window and the held
state but differing elsewhere classify identically, and neither call
changes its state. -/
theorem getlinestate_frame_witness :
    (windowDeltas (wsys 45 0 .RINGING) = windowDeltas (wsys 50 5 .RINGING)) ∧
      ((wsys 45 0 .RINGING).last_linestate = (wsys 50 5 .RINGING).last_linestate) ∧
      (getlinestate (wsys 45 0 .RINGING)).2 = wsys 45 0 .RINGING ∧
      (getlinestate (wsys 50 5 .RINGING)).2 = wsys 50 5 .RINGING ∧
      (getlinestate (wsys 45 0 .RINGING)).1 = (getlinestate (wsys 50 5 .RINGING)).1 :=
  ⟨by decide, rfl,
    (getlinestate_frame _ _ (by decide) rfl).1,
    (getlinestate_frame _ _ (by decide) rfl).2.1,
    (getlinestate_frame _ _ (by decide) rfl).2.2⟩

lemma sampled_last (r t : ℕ) (s : Sys) :
    (sampled r t s).last_linestate = s.last_linestate := rfl

lemma getlinestate_sampled (r t : ℕ) (s : Sys) :
    getlinestate (sampled r t s) = (new_state r t s, sampled r t s) := by
  rw [getlinestate_eq_classify, new_state, getlinestate_eq_classify]

/-- The loop() cycle on the ON_HOOK to OFF_HOOK edge: actuation sequence,
then the held state becomes the new decision. -/
lemma loop_trigger (r t : ℕ) (s : Sys)
    (h1 : s.last_linestate = .ON_HOOK) (h2 : new_state r t s = .OFF_HOOK) :
    loop r t s =
      ({ sampled r t s with shunted := false, last_linestate := new_state r t s },
       [.analog_read s.pbx_ring.port r, .analog_read s.pbx_tip.port t,
        .digital_write LED true, .digital_write DISCONNECT_SHUNT false,
        .delay 750, .digital_write DISCONNECT_SHUNT true,
        .digital_write LED false, .delay SAMPLE_INTERVAL]) := by
  have hsamp := getlinestate_sampled r t s
  have hch : new_state r t s ≠ (sampled r t s).last_linestate := by
    rw [sampled_last, h1, h2]
    intro hc
    exact line_state_t.noConfusion hc
  have h2s : (sampled r t s).last_linestate = .ON_HOOK ∧
      new_state r t s = .OFF_HOOK := ⟨h1, h2⟩
  unfold loop
  simp only [sampled, sample_ring, sample_tip] at hsamp hch h2s ⊢
  rw [hsamp, if_pos hch, if_pos h2s]
  simp [do_shunt]

/-- The loop() cycle on any non-trigger classification: no hardware access
beyond the two acquisitions and the sleep, and the held state becomes the
new decision. -/
lemma loop_no_trigger (r t : ℕ) (s : Sys)
    (h : ¬ (s.last_linestate = .ON_HOOK ∧ new_state r t s = .OFF_HOOK)) :
    loop r t s =
      ({ sampled r t s with last_linestate := new_state r t s },
       [.analog_read s.pbx_ring.port r, .analog_read s.pbx_tip.port t,
        .delay SAMPLE_INTERVAL]) := by
  have hsamp := getlinestate_sampled r t s
  have h2s : ¬ ((sampled r t s).last_linestate = .ON_HOOK ∧
      new_state r t s = .OFF_HOOK) := by
    simpa only [sampled_last] using h
  unfold loop
  simp only [sampled, sample_ring, sample_tip] at hsamp h2s ⊢
  rw [hsamp]
  by_cases hch : new_state r t s ≠ s.last_linestate
  · rw [if_pos hch, if_neg h2s]
    simp
  · rw [if_neg hch]
    simp only [not_not] at hch
    rw [hch]
    simp

/-- Claim C1: the actuation sequence (any write of the shunt relay pin)
occurs in a loop() cycle exactly when the previously held state was
ON_HOOK and the classifier's new decision is OFF_HOOK; in every case the
held state afterward equals the new decision. -/
theorem actuation_iff (r t : ℕ) (s : Sys) :
    ((loop r t s).2.any touches_shunt = true ↔
      (s.last_linestate = .ON_HOOK ∧ new_state r t s = .OFF_HOOK)) ∧
    (loop r t s).1.last_linestate = new_state r t s := by
  by_cases h : s.last_linestate = .ON_HOOK ∧ new_state r t s = .OFF_HOOK
  · rw [loop_trigger r t s h.1 h.2]
    refine ⟨⟨fun _ => h, fun _ => ?_⟩, rfl⟩
    simp [touches_shunt, DISCONNECT_SHUNT]
  · rw [loop_no_trigger r t s h]
    refine ⟨⟨fun hany => ?_, fun hc => absurd hc h⟩, rfl⟩
    simp [touches_shunt] at hany

/-- Claim C6: on the ON_HOOK to OFF_HOOK edge the cycle's whole trace is,
in order with nothing interleaved: the two conductor acquisitions (which
precede the sequence), busy LED on, conditioning element engaged (the
shunt relay pin driven low), a single blocking 750 ms dwell with no
acquisition or classification inside it, element disengaged, LED off, and
the inter-cycle sleep; afterwards the held state is OFF_HOOK and the
element is disengaged, so it was engaged exactly for the dwell and at no
other time in the cycle. -/
theorem actuation_sequence_exact (r t : ℕ) (s : Sys)
    (h1 : s.last_linestate = .ON_HOOK) (h2 : new_state r t s = .OFF_HOOK) :
    (loop r t s).2 =
      [.analog_read s.pbx_ring.port r, .analog_read s.pbx_tip.port t,
       .digital_write LED true, .digital_write DISCONNECT_SHUNT false,
       .delay 750, .digital_write DISCONNECT_SHUNT true,
       .digital_write LED false, .delay SAMPLE_INTERVAL] ∧
    (loop r t s).1.last_linestate = .OFF_HOOK ∧
    (loop r t s).1.shunted = false := by
  rw [loop_trigger r t s h1 h2]
  exact ⟨rfl, h2, rfl⟩

lemma sampled_wsys_idxs :
    windowIdxs NUM_SAMPLES (sampled 512 512 (wsys 5 0 .ON_HOOK)).pbx_ring.nextslot =
      [0, 399, 398, 397, 396, 395, 394, 393, 392, 391] := by decide

lemma sampled_wsys_deltas :
    windowDeltas (sampled 512 512 (wsys 5 0 .ON_HOOK)) =
      [0, 5, 5, 5, 5, 5, 5, 5, 5, 5] := by
  rw [windowDeltas, sampled_wsys_idxs]
  norm_num [sampled, sample_tip, sample_ring, read_voltage, wsys, Function.update]

lemma new_state_wsys :
    new_state 512 512 (wsys 5 0 .ON_HOOK) = .OFF_HOOK := by
  rw [new_state, getlinestate_eq_classify]
  show classify (windowDeltas (sampled 512 512 (wsys 5 0 .ON_HOOK)))
      (sampled 512 512 (wsys 5 0 .ON_HOOK)).last_linestate = _
  rw [sampled_wsys_deltas, classify_spec]
  decide

/-- Witness for C6: a concrete cycle from held state ON_HOOK whose window
classifies OFF_HOOK runs exactly the actuation trace. -/
theorem actuation_sequence_exact_witness :
    (wsys 5 0 .ON_HOOK).last_linestate = .ON_HOOK ∧
      new_state 512 512 (wsys 5 0 .ON_HOOK) = .OFF_HOOK ∧
      ((loop 512 512 (wsys 5 0 .ON_HOOK)).2 =
        [.analog_read (wsys 5 0 .ON_HOOK).pbx_ring.port 512,
         .analog_read (wsys 5 0 .ON_HOOK).pbx_tip.port 512,
         .digital_write LED true, .digital_write DISCONNECT_SHUNT false,
         .delay 750, .digital_write DISCONNECT_SHUNT true,
         .digital_write LED false, .delay SAMPLE_INTERVAL] ∧
       (loop 512 512 (wsys 5 0 .ON_HOOK)).1.last_linestate = .OFF_HOOK ∧
       (loop 512 512 (wsys 5 0 .ON_HOOK)).1.shunted = false) :=
  ⟨rfl, new_state_wsys,
    actuation_sequence_exact 512 512 (wsys 5 0 .ON_HOOK) rfl new_state_wsys⟩

lemma roundHalfAway_mono {x y : ℚ} (h : x ≤ y) :
    roundHalfAway x ≤ roundHalfAway y := by
  unfold roundHalfAway
  by_cases hx : 0 ≤ x
  · rw [if_pos hx, if_pos (le_trans hx h), ratFloor_eq, ratFloor_eq]
    exact Int.floor_le_floor (by linarith)
  · rw [if_neg hx]
    by_cases hy : 0 ≤ y
    · rw [if_pos hy, ratFloor_eq, ratCeil_eq]
      have h1 : (⌈x - 1/2⌉ : ℤ) ≤ 0 := by
        rw [Int.ceil_le]
        push_cast
        linarith [not_le.mp hx]
      have h2 : (0 : ℤ) ≤ ⌊y + 1/2⌋ := by
        rw [Int.le_floor]
        push_cast
        linarith
      omega
    · rw [if_neg hy, ratCeil_eq, ratCeil_eq]
      exact Int.ceil_le_ceil (by linarith)

lemma Vin_of_raw_mono {a b : ℕ} (h : a ≤ b) :
    Vin_of_raw a ≤ Vin_of_raw b := by
  have hab : (a : ℚ) ≤ (b : ℚ) := by exact_mod_cast h
  unfold Vin_of_raw Vref Vbias RA RB RC
  nlinarith [hab]

/-- Claim C8: the acquisition transform followed by round-half-away-from-
zero is monotonically non-decreasing in the raw ADC code, so code 0 gives
the minimum rounded voltage over the 10-bit range and code 1023 the
maximum. -/
theorem voltage_transform_monotone :
    (∀ a b : ℕ, a ≤ b → voltage a ≤ voltage b) ∧
    (∀ a : ℕ, a ≤ 1023 → voltage 0 ≤ voltage a ∧ voltage a ≤ voltage 1023) := by
  have hmono : ∀ a b : ℕ, a ≤ b → voltage a ≤ voltage b := fun a b hab =>
    roundHalfAway_mono (Vin_of_raw_mono hab)
  exact ⟨hmono, fun a ha => ⟨hmono 0 a (Nat.zero_le a), hmono a 1023 ha⟩⟩

/-- Witness for C8 at concrete ADC codes. -/
theorem voltage_transform_monotone_witness :
    voltage 100 ≤ voltage 200 ∧
      (voltage 0 ≤ voltage 512 ∧ voltage 512 ≤ voltage 1023) :=
  ⟨voltage_transform_monotone.1 100 200 (by decide),
   voltage_transform_monotone.2 512 (by decide)⟩

lemma fill_loop_connected (raws : List (ℕ × ℕ)) :
    ∀ s : Sys, (fill_loop raws s).connected = s.connected := by
  induction raws with
  | nil => intro s; rfl
  | cons p rest ih =>
    intro s
    rcases p with ⟨r, t⟩
    rw [fill_loop, ih]
    rfl

lemma loop_connected (r t : ℕ) (s : Sys) :
    (loop r t s).1.connected = s.connected := by
  by_cases h : s.last_linestate = .ON_HOOK ∧ new_state r t s = .OFF_HOOK
  · rw [loop_trigger r t s h.1 h.2]
    rfl
  · rw [loop_no_trigger r t s h]
    rfl

lemma iterate_loop_connected (cycles : List (ℕ × ℕ)) :
    ∀ s : Sys, (iterate_loop cycles s).connected = s.connected := by
  induction cycles with
  | nil => intro s; rfl
  | cons p rest ih =>
    intro s
    rcases p with ⟨r, t⟩
    rw [iterate_loop, ih, loop_connected]

/-- Claim C10: setup engages the CO-PBX connection relays and nothing in
loop() ever touches them again: the connected flag stays true through every
later cycle, and no cycle's trace writes either isolation relay pin. -/
theorem connection_stays_engaged (raws cycles : List (ℕ × ℕ)) :
    (setup raws init).connected = true ∧
    (iterate_loop cycles (setup raws init)).connected = true ∧
    (∀ r t s, (loop r t s).1.connected = s.connected) ∧
    (∀ r t s, (loop r t s).2.any touches_connect = false) := by
  have hsetup : (setup raws init).connected = true := by
    show (fill_loop raws _).connected = true
    rw [fill_loop_connected]
    rfl
  refine ⟨hsetup, ?_, fun r t s => loop_connected r t s, fun r t s => ?_⟩
  · rw [iterate_loop_connected, hsetup]
  · by_cases h : s.last_linestate = .ON_HOOK ∧ new_state r t s = .OFF_HOOK
    · rw [loop_trigger r t s h.1 h.2]
      simp [touches_connect, LED, DISCONNECT_SHUNT, DISCONNECT_CO_PBX_TIP,
        DISCONNECT_CO_PBX_RING]
    · rw [loop_no_trigger r t s h]
      simp [touches_connect]

lemma fill_loop_count (raws : List (ℕ × ℕ)) :
    ∀ s : Sys, (fill_loop raws s).count = s.count + 2 * raws.length := by
  induction raws with
  | nil => intro s; simp [fill_loop]
  | cons p rest ih =>
    intro s
    rcases p with ⟨r, t⟩
    rw [fill_loop, ih]
    show s.count + 1 + 1 + 2 * rest.length = s.count + 2 * (rest.length + 1)
    ring

/-- The warm-up fill, starting with both cursors at k, writes its samples
into consecutive slots k, k+1, ... and leaves the cursors one past the
last written slot (0 if the buffer boundary is exactly reached). -/
lemma fill_loop_spec (raws : List (ℕ × ℕ)) :
    ∀ (s : Sys) (k : ℤ),
      s.pbx_ring.nextslot = k → s.pbx_tip.nextslot = k →
      0 ≤ k → k < (NUM_HISTORY : ℤ) →
      k + raws.length ≤ (NUM_HISTORY : ℤ) →
      ((fill_loop raws s).pbx_ring.nextslot =
          if k + raws.length = (NUM_HISTORY : ℤ) then 0 else k + raws.length) ∧
      ((fill_loop raws s).pbx_tip.nextslot =
          if k + raws.length = (NUM_HISTORY : ℤ) then 0 else k + raws.length) ∧
      (∀ j : ℤ,
        (fill_loop raws s).pbx_ring.history j =
          if k ≤ j ∧ j < k + raws.length then
            int8wrap (voltage ((raws.getD (j - k).toNat (0, 0)).1))
          else s.pbx_ring.history j) ∧
      (∀ j : ℤ,
        (fill_loop raws s).pbx_tip.history j =
          if k ≤ j ∧ j < k + raws.length then
            int8wrap (voltage ((raws.getD (j - k).toNat (0, 0)).2))
          else s.pbx_tip.history j) := by
  induction raws with
  | nil =>
    intro s k hr ht hk0 hklt hbound
    refine ⟨?_, ?_, ?_, ?_⟩
    · show s.pbx_ring.nextslot = _
      rw [hr, if_neg (by simp only [List.length_nil, Nat.cast_zero]; omega)]
      simp
    · show s.pbx_tip.nextslot = _
      rw [ht, if_neg (by simp only [List.length_nil, Nat.cast_zero]; omega)]
      simp
    · intro j
      rw [if_neg (by simp only [List.length_nil, Nat.cast_zero]; omega)]
      rfl
    · intro j
      rw [if_neg (by simp only [List.length_nil, Nat.cast_zero]; omega)]
      rfl
  | cons p rest ih =>
    intro s k hr ht hk0 hklt hbound
    rcases p with ⟨r, t⟩
    rw [fill_loop]
    simp only [List.length_cons, Nat.cast_add, Nat.cast_one] at hbound ⊢
    have hring : (sample_tip t (sample_ring r s).1).1.pbx_ring =
        (read_voltage r s.pbx_ring).2 := rfl
    have htip : (sample_tip t (sample_ring r s).1).1.pbx_tip =
        (read_voltage t s.pbx_tip).2 := rfl
    have hrh : (read_voltage r s.pbx_ring).2.history =
        Function.update s.pbx_ring.history k (int8wrap (voltage r)) := by
      rw [← hr]; rfl
    have hth : (read_voltage t s.pbx_tip).2.history =
        Function.update s.pbx_tip.history k (int8wrap (voltage t)) := by
      rw [← ht]; rfl
    by_cases hstep : k + 1 < (NUM_HISTORY : ℤ)
    · have hrn : (sample_tip t (sample_ring r s).1).1.pbx_ring.nextslot = k + 1 := by
        rw [hring]
        show (if (NUM_HISTORY : ℤ) ≤ s.pbx_ring.nextslot + 1 then 0
          else s.pbx_ring.nextslot + 1) = k + 1
        rw [hr, if_neg (by omega)]
      have htn : (sample_tip t (sample_ring r s).1).1.pbx_tip.nextslot = k + 1 := by
        rw [htip]
        show (if (NUM_HISTORY : ℤ) ≤ s.pbx_tip.nextslot + 1 then 0
          else s.pbx_tip.nextslot + 1) = k + 1
        rw [ht, if_neg (by omega)]
      obtain ⟨ih1, ih2, ih3, ih4⟩ :=
        ih (sample_tip t (sample_ring r s).1).1 (k + 1) hrn htn (by omega) hstep
          (by omega)
      refine ⟨?_, ?_, ?_, ?_⟩
      · rw [ih1]
        by_cases hfull : k + 1 + (rest.length : ℤ) = (NUM_HISTORY : ℤ)
        · rw [if_pos hfull, if_pos (by omega)]
        · rw [if_neg hfull, if_neg (by omega)]
          ring
      · rw [ih2]
        by_cases hfull : k + 1 + (rest.length : ℤ) = (NUM_HISTORY : ℤ)
        · rw [if_pos hfull, if_pos (by omega)]
        · rw [if_neg hfull, if_neg (by omega)]
          ring
      · intro j
        rw [ih3 j]
        by_cases hj1 : k + 1 ≤ j ∧ j < k + 1 + (rest.length : ℤ)
        · rw [if_pos hj1, if_pos (show k ≤ j ∧ j < k + ((rest.length : ℤ) + 1) by omega)]
          rw [show (j - k).toNat = (j - (k + 1)).toNat + 1 by omega]
          rfl
        · rw [if_neg hj1, hring, hrh]
          by_cases hj2 : j = k
          · subst hj2
            rw [Function.update_same, if_pos (by omega)]
            rw [show (j - j).toNat = 0 by omega]
            rfl
          · rw [Function.update_noteq hj2, if_neg (by omega)]
      · intro j
        rw [ih4 j]
        by_cases hj1 : k + 1 ≤ j ∧ j < k + 1 + (rest.length : ℤ)
        · rw [if_pos hj1, if_pos (show k ≤ j ∧ j < k + ((rest.length : ℤ) + 1) by omega)]
          rw [show (j - k).toNat = (j - (k + 1)).toNat + 1 by omega]
          rfl
        · rw [if_neg hj1, htip, hth]
          by_cases hj2 : j = k
          · subst hj2
            rw [Function.update_same, if_pos (by omega)]
            rw [show (j - j).toNat = 0 by omega]
            rfl
          · rw [Function.update_noteq hj2, if_neg (by omega)]
    · have hk1 : k + 1 = (NUM_HISTORY : ℤ) := by omega
      have hrest : rest = [] := by
        have : (rest.length : ℤ) = 0 := by omega
        exact List.eq_nil_of_length_eq_zero (by exact_mod_cast this)
      subst hrest
      rw [fill_loop]
      refine ⟨?_, ?_, ?_, ?_⟩
      · rw [hring]
        show (if (NUM_HISTORY : ℤ) ≤ s.pbx_ring.nextslot + 1 then 0
          else s.pbx_ring.nextslot + 1) = _
        rw [hr, if_pos (by omega), if_pos (by simp only [List.length_nil, Nat.cast_zero]; omega)]
      · rw [htip]
        show (if (NUM_HISTORY : ℤ) ≤ s.pbx_tip.nextslot + 1 then 0
          else s.pbx_tip.nextslot + 1) = _
        rw [ht, if_pos (by omega), if_pos (by simp only [List.length_nil, Nat.cast_zero]; omega)]
      · intro j
        rw [hring, hrh]
        by_cases hj2 : j = k
        · subst hj2
          rw [Function.update_same, if_pos (by simp only [List.length_nil, Nat.cast_zero]; omega)]
          rw [show (j - j).toNat = 0 by omega]
          rfl
        · rw [Function.update_noteq hj2,
            if_neg (by simp only [List.length_nil, Nat.cast_zero]; omega)]
      · intro j
        rw [htip, hth]
        by_cases hj2 : j = k
        · subst hj2
          rw [Function.update_same, if_pos (by simp only [List.length_nil, Nat.cast_zero]; omega)]
          rw [show (j - j).toNat = 0 by omega]
          rfl
        · rw [Function.update_noteq hj2,
            if_neg (by simp only [List.length_nil, Nat.cast_zero]; omega)]

lemma NUM_HISTORY_cast : (NUM_HISTORY : ℤ) = 400 := by
  norm_num [NUM_HISTORY, SAMPLE_INTERVAL]

/-- Claim C7: every read_voltage call writes the rounded voltage at the
cursor and advances the cursor by one modulo the capacity, keeping it in
[0, NUM_HISTORY) and leaving every other slot untouched; the warm-up in
setup() performs NUM_HISTORY acquisitions per conductor, filling slot j of
each conductor with its j-th sample and returning both cursors to 0 (the
oldest retained sample, the next slot to be overwritten); and a loop()
cycle advances both conductors' cursors in lockstep, preserving the
index alignment of the two buffers. -/
theorem read_voltage_buffer_invariant (aval : ℕ) (p : pbx_line_t)
    (hp0 : 0 ≤ p.nextslot) (hp1 : p.nextslot < (NUM_HISTORY : ℤ))
    (raws : List (ℕ × ℕ)) (hlen : raws.length = NUM_HISTORY) :
    ((read_voltage aval p).2.nextslot = (p.nextslot + 1) % (NUM_HISTORY : ℤ)) ∧
    (0 ≤ (read_voltage aval p).2.nextslot ∧
      (read_voltage aval p).2.nextslot < (NUM_HISTORY : ℤ)) ∧
    ((read_voltage aval p).2.history p.nextslot = int8wrap (voltage aval)) ∧
    (∀ j : ℤ, j ≠ p.nextslot → (read_voltage aval p).2.history j = p.history j) ∧
    ((setup raws init).pbx_ring.nextslot = 0 ∧
      (setup raws init).pbx_tip.nextslot = 0) ∧
    ((setup raws init).count = 2 * NUM_HISTORY) ∧
    (∀ j : ℤ, 0 ≤ j → j < (NUM_HISTORY : ℤ) →
      (setup raws init).pbx_ring.history j =
          int8wrap (voltage ((raws.getD j.toNat (0, 0)).1)) ∧
      (setup raws init).pbx_tip.history j =
          int8wrap (voltage ((raws.getD j.toNat (0, 0)).2))) ∧
    (∀ r t s, s.pbx_tip.nextslot = s.pbx_ring.nextslot →
      (loop r t s).1.pbx_tip.nextslot = (loop r t s).1.pbx_ring.nextslot) := by
  have hN := NUM_HISTORY_cast
  have hA : (read_voltage aval p).2.nextslot =
      (p.nextslot + 1) % (NUM_HISTORY : ℤ) := by
    show (if (NUM_HISTORY : ℤ) ≤ p.nextslot + 1 then 0 else p.nextslot + 1) = _
    rw [hN] at hp1 ⊢
    by_cases h : (400 : ℤ) ≤ p.nextslot + 1
    · rw [if_pos h]
      omega
    · rw [if_neg h]
      omega
  obtain ⟨h1, h2, h3, h4⟩ :=
    fill_loop_spec raws ((do_connect true ((do_shunt false init).1)).1) 0 rfl rfl
      le_rfl (by omega) (by rw [hlen]; simp)
  have hfullslot : (0 : ℤ) + (raws.length : ℤ) = (NUM_HISTORY : ℤ) := by
    rw [hlen]
    ring
  refine ⟨hA, ?_, Function.update_same _ _ _,
    fun j hj => Function.update_noteq hj _ _, ⟨?_, ?_⟩, ?_, ?_, ?_⟩
  · rw [hA, hN] at *
    constructor
    · exact Int.emod_nonneg _ (by omega)
    · exact Int.emod_lt_of_pos _ (by omega)
  · show (fill_loop raws _).pbx_ring.nextslot = 0
    rw [h1, if_pos hfullslot]
  · show (fill_loop raws _).pbx_tip.nextslot = 0
    rw [h2, if_pos hfullslot]
  · show (fill_loop raws _).count = 2 * NUM_HISTORY
    rw [fill_loop_count, hlen]
    show 0 + 2 * NUM_HISTORY = 2 * NUM_HISTORY
    exact Nat.zero_add _
  · intro j hj0 hj1
    constructor
    · show (fill_loop raws _).pbx_ring.history j = _
      rw [h3 j, if_pos (by constructor <;> omega), sub_zero]
    · show (fill_loop raws _).pbx_tip.history j = _
      rw [h4 j, if_pos (by constructor <;> omega), sub_zero]
  · intro r t s hts
    have hgoal : (sampled r t s).pbx_tip.nextslot =
        (sampled r t s).pbx_ring.nextslot := by
      show (if (NUM_HISTORY : ℤ) ≤ s.pbx_tip.nextslot + 1 then 0
          else s.pbx_tip.nextslot + 1) =
        (if (NUM_HISTORY : ℤ) ≤ s.pbx_ring.nextslot + 1 then 0
          else s.pbx_ring.nextslot + 1)
      rw [hts]
    by_cases h : s.last_linestate = .ON_HOOK ∧ new_state r t s = .OFF_HOOK
    · rw [loop_trigger r t s h.1 h.2]
      exact hgoal
    · rw [loop_no_trigger r t s h]
      exact hgoal

/-- Witness for C7: the ring conductor with cursor 0 and a full replicate
warm-up input list. -/
theorem read_voltage_buffer_invariant_witness :
    (0 : ℤ) ≤ (wsys 5 0 .ON_HOOK).pbx_ring.nextslot ∧
    (wsys 5 0 .ON_HOOK).pbx_ring.nextslot < (NUM_HISTORY : ℤ) ∧
    (List.replicate NUM_HISTORY ((512 : ℕ), (512 : ℕ))).length = NUM_HISTORY ∧
    (read_voltage 512 (wsys 5 0 .ON_HOOK).pbx_ring).2.nextslot =
      ((wsys 5 0 .ON_HOOK).pbx_ring.nextslot + 1) % (NUM_HISTORY : ℤ) :=
  ⟨by decide, by decide, List.length_replicate _ _,
   (read_voltage_buffer_invariant 512 (wsys 5 0 .ON_HOOK).pbx_ring (by decide)
      (by decide) (List.replicate NUM_HISTORY (512, 512))
      (List.length_replicate _ _)).1⟩

end PhonelineFixer
